import Mathlib

/-!
Shallow embedding of the history-state core of the codemirror commands
repository (file `history.ts` of the early codemirror-next line, present here
as `src/unnamed/part_001`).

The edit-script machinery (`ChangeSet`, `ChangeDesc`, `EditorSelection`) is an
external dependency of the engine — the spec treats it as opaque beyond
composition (`appendSet` / `append`, modelled as list concatenation), indexed
suffix composition (`partialMapping from`, modelled as `List.drop from`), and
mapping of single changes and selections through a composed script.  We
therefore parametrise the development over three types: `D` for `ChangeDesc`,
`C` for `Change` (a `Change` is usable as a `ChangeDesc`, the coercion is the
`desc` field of `EditOpsModel`), and `S` for `EditorSelection`, together with
the three external operations the engine calls.  A `ChangeSet` is its list of
changes; `ChangeSet.length` is the list length, `ChangeSet.empty` is `[]`.
-/

/-- External edit-script operations consumed by the history engine:
`desc` is the upcast from `Change` to `ChangeDesc` (`changes.desc` in the
source), `mapChange c ds` is `c.map(mapping)` where `ds` is the list of descs
the mapping is composed of (`none` when the change is fully deleted by the
mapping), and `mapSel s ds` is `selection.map(changeSet)`. -/
structure EditOpsModel (D C S : Type) where
  desc : C → D
  mapChange : C → List D → Option C
  mapSel : S → List D → S

/-- History Item (class `Item` in the source): a forward map (`map`, the
`ChangeSet<ChangeDesc>` as its list of descs), an optional inverse script
(`inverted`, list of changes) and an optional selection from before the
edit. -/
structure Item (D C S : Type) where
  map : List D
  inverted : Option (List C) := none
  selection : Option S := none
deriving DecidableEq, Repr

/-- Source: `get isChange() { return this.inverted != null }`. -/
def Item.isChange {D C S : Type} (it : Item D C S) : Bool :=
  it.inverted.isSome

/-- Source: `export const enum ItemFilter { OnlyChanges, Any }`. -/
inductive ItemFilter where
  | OnlyChanges
  | Any
deriving DecidableEq, Repr

/-- Source: `export const enum PopTarget { Done, Undone }`. -/
inductive PopTarget where
  | Done
  | Undone
deriving DecidableEq, Repr

/-- Source `updateBranch`: trim the branch to at most `maxLen` plus the grace
margin, keep `branch.slice(start, to)` and push `newItem`.  JS
`branch.slice(start, to)` is `(branch.take to).drop start`; in the trimming
case `to - maxLen - 1` is positive, so `Nat` subtraction is exact. -/
def updateBranch {D C S : Type} (branch : List (Item D C S)) (toIdx maxLen : Nat)
    (newItem : Item D C S) : List (Item D C S) :=
  let start := if toIdx + 1 > maxLen + 20 then toIdx - maxLen - 1 else 0
  ((branch.take toIdx).drop start) ++ [newItem]

/-- Source free function `addChanges`: merge the new edit into the last item
when `inverted` is present, the branch is non-empty, its last item is a change
record and `mayMerge` accepts the pair of adjacent changes; otherwise append a
fresh item.  `mayMerge` receives `lastItem.map.changes[lastItem.map.length-1]`
(`none` when the map is empty) and `changes.changes[0]` upcast to a desc
(`none` when the new script is empty), mirroring `ChangeDesc | null` at the
JS runtime. -/
def Branch.addChanges {D C S : Type} (ops : EditOpsModel D C S)
    (branch : List (Item D C S)) (changes : List C) (inverted : Option (List C))
    (selectionBefore : S) (maxLen : Nat)
    (mayMerge : Option D → Option D → Bool) : List (Item D C S) :=
  match inverted, branch.getLast? with
  | some inv, some lastItem =>
    match lastItem.inverted with
    | some lastInv =>
      if mayMerge lastItem.map.getLast? ((changes.head?).map ops.desc) then
        updateBranch branch (branch.length - 1) maxLen
          ⟨lastItem.map ++ changes.map ops.desc, some (inv ++ lastInv),
            lastItem.selection⟩
      else
        updateBranch branch branch.length maxLen
          ⟨changes.map ops.desc, inverted, some selectionBefore⟩
    | none =>
      updateBranch branch branch.length maxLen
        ⟨changes.map ops.desc, inverted, some selectionBefore⟩
  | _, _ =>
    updateBranch branch branch.length maxLen
      ⟨changes.map ops.desc, inverted, some selectionBefore⟩

/-- Scan loop of `popChanges` (the `for (;; idx--)` loop), expressed on the
reversed branch (top item first).  Returns the found item, the reversed
remainder below it, and the accumulated pass-through map
(`map = map ? entry.map.appendSet(map) : entry.map`); `none` models the
`RangeError` thrown when the scan runs off the bottom. -/
def popScanLoop {D C S : Type} (only : ItemFilter) :
    List (Item D C S) → Option (List D) →
    Option (Item D C S × List (Item D C S) × Option (List D))
  | [], _ => none
  | entry :: rest, map =>
    if only = ItemFilter.Any ∨ entry.isChange then
      some (entry, rest, map)
    else
      popScanLoop only rest
        (some (match map with
               | some m => entry.map ++ m
               | none => entry.map))

/-- Remap loop of `popChanges` (the `for (let i = 0; ...)` loop): each inverse
change is mapped through `map.partialMapping(startIndex - i)`, i.e. through the
suffix of the composed map starting at index `startIndex - i`; a successfully
mapped change extends the composed map by its desc and is collected, a change
that maps to `null` is dropped.  Returns the final composed map and the
collected mapped changes. -/
def remapLoop {D C S : Type} (ops : EditOpsModel D C S) (startIndex : Nat) :
    List C → Nat → List D → List C → List D × List C
  | [], _, map, acc => (map, acc)
  | c :: rest, i, map, acc =>
    match ops.mapChange c (map.drop (startIndex - i)) with
    | some mapped =>
      remapLoop ops startIndex rest (i + 1) (map ++ [ops.desc mapped])
        (acc ++ [mapped])
    | none => remapLoop ops startIndex rest (i + 1) map acc

/-- Result record of `popChanges`.  The source declares `selection` non-null
but at runtime it is `changeItem.selection` unchecked, so it is an `Option`
here. -/
structure PopResult (D C S : Type) where
  changes : List C
  branch : List (Item D C S)
  selection : Option S
deriving DecidableEq, Repr

/-- Source free function `popChanges`: scan down the branch for the target
item (skipping and accumulating pass-through maps under `OnlyChanges`), then
either return the inverse of the target, remainder branch and stored selection
directly, or — when pass-through maps were accumulated — remap the inverse
through the composed map, push a single residual pass-through item, and map
the selection through the final composed map.  The thrown `RangeError` is the
`Except.error` case. -/
def popChanges {D C S : Type} (ops : EditOpsModel D C S)
    (branch : List (Item D C S)) (only : ItemFilter) :
    Except String (PopResult D C S) :=
  match popScanLoop only branch.reverse none with
  | none => .error "popChanges called on empty branch"
  | some (changeItem, restRev, mapOpt) =>
    let newBranch := restRev.reverse
    let changes := changeItem.inverted.getD []
    match mapOpt with
    | none => .ok ⟨changes, newBranch, changeItem.selection⟩
    | some acc =>
      let startIndex := changeItem.map.length
      let m0 := changeItem.map ++ acc
      let r := remapLoop ops startIndex changes 0 m0 []
      .ok ⟨r.2, newBranch ++ [⟨r.1, none, none⟩],
        changeItem.selection.map (fun s => ops.mapSel s r.1)⟩

/-- Source: `function nope() { return false }`. -/
def nope {D : Type} : Option D → Option D → Bool := fun _ _ => false

/-- History State (class `HistoryState`): two branches plus the timestamp of
the previous tracked edit. -/
structure HistoryState (D C S : Type) where
  done : List (Item D C S)
  undone : List (Item D C S)
  prevTime : Option Int := none
deriving DecidableEq, Repr

/-- Source: `static empty = new HistoryState([], [])`. -/
def HistoryState.empty {D C S : Type} : HistoryState D C S := ⟨[], [], none⟩

/-- Source `resetTime`: drop the stored timestamp. -/
def HistoryState.resetTime {D C S : Type} (s : HistoryState D C S) :
    HistoryState D C S :=
  ⟨s.done, s.undone, none⟩

/-- Source method `HistoryState.addChanges`: fold the edit into the done
branch, passing the supplied merge predicate only when the previous tracked
edit is within `newGroupDelay`, and record `time` as the new timestamp. -/
def HistoryState.addChanges {D C S : Type} (s : HistoryState D C S)
    (ops : EditOpsModel D C S) (changes : List C) (inverted : Option (List C))
    (selection : S) (mayMerge : Option D → Option D → Bool) (time : Int)
    (newGroupDelay : Int) (maxLen : Nat) : HistoryState D C S :=
  ⟨Branch.addChanges ops s.done changes inverted selection maxLen
      (match s.prevTime with
       | some prev => if time - prev < newGroupDelay then mayMerge else nope
       | none => nope),
    s.undone, some time⟩

/-- Source method `HistoryState.addMapping`: no-op on an empty done branch,
otherwise append a pass-through item (map only) to the done branch; the undone
branch and the omitted constructor argument `prevTime` (hence `none`) are as in
`new HistoryState(updateBranch(...), this.undone)`. -/
def HistoryState.addMapping {D C S : Type} (s : HistoryState D C S)
    (map : List D) (maxLen : Nat) : HistoryState D C S :=
  if s.done.length = 0 then s
  else ⟨updateBranch s.done s.done.length maxLen ⟨map, none, none⟩,
    s.undone, none⟩

/-- Source method `HistoryState.canPop`: under `Any` the targeted branch must
be non-empty, under `OnlyChanges` it must contain a change record. -/
def HistoryState.canPop {D C S : Type} (s : HistoryState D C S)
    (done : PopTarget) (only : ItemFilter) : Bool :=
  let target := match done with
    | PopTarget.Done => s.done
    | PopTarget.Undone => s.undone
  match only with
  | ItemFilter.Any => decide (0 < target.length)
  | ItemFilter.OnlyChanges => target.any (·.isChange)

/-- Source method `eventCount`: number of change records in the targeted
branch. -/
def HistoryState.eventCount {D C S : Type} (s : HistoryState D C S)
    (done : PopTarget) : Nat :=
  let branch := match done with
    | PopTarget.Done => s.done
    | PopTarget.Undone => s.undone
  branch.countP (·.isChange)

/-- Concrete instantiation of the external edit-script operations used to
evaluate the development on closed inputs: descs and changes are numbers, the
desc of a change is itself, mapping a change through a composed script shifts
it by the length of the script, and so for selections. -/
def natOps : EditOpsModel Nat Nat Nat where
  desc := id
  mapChange := fun c ds => some (c + ds.length)
  mapSel := fun s ds => s + ds.length

/-! ## Helper lemmas -/

/-- Length of a trimmed branch never exceeds the depth limit plus the grace
margin of 20. -/
theorem length_updateBranch_le {D C S : Type} (branch : List (Item D C S))
    (toIdx maxLen : Nat) (it : Item D C S) :
    (updateBranch branch toIdx maxLen it).length ≤ maxLen + 20 := by
  simp only [updateBranch, List.length_append, List.length_drop, List.length_take,
    List.length_singleton]
  split <;> omega

/-- Membership in a trimmed branch comes from the new item or the old
branch. -/
theorem mem_updateBranch {D C S : Type} {it newItem : Item D C S}
    {branch : List (Item D C S)} {toIdx maxLen : Nat}
    (h : it ∈ updateBranch branch toIdx maxLen newItem) :
    it = newItem ∨ it ∈ branch := by
  simp only [updateBranch, List.mem_append, List.mem_singleton] at h
  rcases h with h | h
  · exact Or.inr (List.mem_of_mem_take (List.mem_of_mem_drop h))
  · exact Or.inl h

/-- With the always-false merge predicate, `addChanges` always appends a fresh
item. -/
theorem addChanges_nope {D C S : Type} (ops : EditOpsModel D C S)
    (branch : List (Item D C S)) (changes : List C) (inverted : Option (List C))
    (sel : S) (maxLen : Nat) :
    Branch.addChanges ops branch changes inverted sel maxLen nope =
      updateBranch branch branch.length maxLen
        ⟨changes.map ops.desc, inverted, some sel⟩ := by
  unfold Branch.addChanges
  rcases inverted with _ | inv <;> rcases hl : branch.getLast? with _ | li <;>
    simp [nope]
  rcases li.inverted with _ | li2 <;> simp [nope]

/-- Any item of the branch produced by `addChanges` with a present inverse is
either a change record or an item of the input branch. -/
theorem mem_addChanges_some {D C S : Type} {ops : EditOpsModel D C S}
    {branch : List (Item D C S)} {changes : List C} {inv : List C} {sel : S}
    {maxLen : Nat} {p : Option D → Option D → Bool} {it : Item D C S}
    (h : it ∈ Branch.addChanges ops branch changes (some inv) sel maxLen p) :
    it.isChange = true ∨ it ∈ branch := by
  unfold Branch.addChanges at h
  repeat' split at h
  all_goals
    (rcases mem_updateBranch h with rfl | hm <;>
      first
        | exact Or.inl rfl
        | exact Or.inr hm)

/-- The remainder returned by the scan loop is strictly shorter than its
input. -/
theorem popScanLoop_rest_length {D C S : Type} (only : ItemFilter) :
    ∀ (l : List (Item D C S)) (m : Option (List D)) (ci : Item D C S)
      (rest : List (Item D C S)) (mo : Option (List D)),
      popScanLoop only l m = some (ci, rest, mo) → rest.length + 1 ≤ l.length := by
  intro l
  induction l with
  | nil => intro m ci rest mo h; simp [popScanLoop] at h
  | cons e tail ih =>
    intro m ci rest mo h
    simp only [popScanLoop] at h
    by_cases hc : (only = ItemFilter.Any ∨ e.isChange = true)
    · rw [if_pos hc] at h
      obtain ⟨rfl, rfl, rfl⟩ := by simpa using h
      simp
    · rw [if_neg hc] at h
      have := ih _ _ _ _ h
      simp only [List.length_cons]
      omega

/-! ## Claim theorems -/

/-- C9: `HistoryState.addChanges` leaves the undone branch untouched — it
only rebuilds the done branch and stores the new timestamp; the redo stack
is never cleared or modified by recording a new tracked edit. -/
theorem hs_addChanges_undone_frame {D C S : Type} (ops : EditOpsModel D C S)
    (s : HistoryState D C S) (changes : List C) (inverted : Option (List C))
    (selection : S) (mayMerge : Option D → Option D → Bool)
    (time newGroupDelay : Int) (maxLen : Nat) :
    (s.addChanges ops changes inverted selection mayMerge time newGroupDelay maxLen).undone
        = s.undone
    ∧ (s.addChanges ops changes inverted selection mayMerge time newGroupDelay maxLen).prevTime
        = some time :=
  ⟨rfl, rfl⟩

/-- C8: the trim operation `updateBranch` keeps a branch within `maxLen` plus
the grace margin of 20; when the untrimmed length `toIdx + 1` fits the bound
no item is discarded, and any trimming removes only a front segment.  The
resulting bound carries over to `addChanges` and `addMapping`, and
`popChanges` never lengthens a branch. -/
theorem updateBranch_trim_bounds {D C S : Type} (branch : List (Item D C S))
    (toIdx maxLen : Nat) (it : Item D C S) :
    (updateBranch branch toIdx maxLen it).length ≤ maxLen + 20
    ∧ (toIdx + 1 ≤ maxLen + 20 →
        updateBranch branch toIdx maxLen it = branch.take toIdx ++ [it])
    ∧ (∃ dropped kept, branch.take toIdx = dropped ++ kept ∧
        updateBranch branch toIdx maxLen it = kept ++ [it])
    ∧ (∀ (ops : EditOpsModel D C S) (changes : List C)
        (inverted : Option (List C)) (sel : S) (p : Option D → Option D → Bool),
        (Branch.addChanges ops branch changes inverted sel maxLen p).length ≤ maxLen + 20)
    ∧ (∀ (s : HistoryState D C S) (m : List D),
        (s.addMapping m maxLen).done.length ≤ maxLen + 20)
    ∧ (∀ (ops : EditOpsModel D C S) (only : ItemFilter) (r : PopResult D C S),
        popChanges ops branch only = Except.ok r → r.branch.length ≤ branch.length) := by
  refine ⟨length_updateBranch_le branch toIdx maxLen it, ?_, ?_, ?_, ?_, ?_⟩
  · intro h
    unfold updateBranch
    rw [if_neg (by omega)]
    simp
  · exact ⟨(branch.take toIdx).take (if toIdx + 1 > maxLen + 20 then toIdx - maxLen - 1 else 0),
      (branch.take toIdx).drop (if toIdx + 1 > maxLen + 20 then toIdx - maxLen - 1 else 0),
      (List.take_append_drop _ _).symm, rfl⟩
  · intro ops changes inverted sel p
    unfold Branch.addChanges
    repeat' split
    all_goals apply length_updateBranch_le
  · intro s m
    unfold HistoryState.addMapping
    split
    · next h => simp only [h]; omega
    · apply length_updateBranch_le
  · intro ops only r h
    unfold popChanges at h
    rcases hscan : popScanLoop only branch.reverse none with _ | ⟨ci, rest, mo⟩ <;>
      rw [hscan] at h
    · simp at h
    · have hlen := popScanLoop_rest_length only branch.reverse none ci rest mo hscan
      rw [List.length_reverse] at hlen
      rcases mo with _ | acc
      · obtain rfl : (⟨ci.inverted.getD [], rest.reverse, ci.selection⟩ : PopResult D C S) = r := by
          simpa using h
        simp only [List.length_reverse]
        omega
      · obtain rfl : (⟨(remapLoop ops ci.map.length (ci.inverted.getD []) 0
            (ci.map ++ acc) []).2,
            rest.reverse ++ [⟨(remapLoop ops ci.map.length (ci.inverted.getD []) 0
              (ci.map ++ acc) []).1, none, none⟩],
            ci.selection.map (fun s => ops.mapSel s (remapLoop ops ci.map.length
              (ci.inverted.getD []) 0 (ci.map ++ acc) []).1)⟩ : PopResult D C S) = r := by
          simpa using h
        simp only [List.length_append, List.length_reverse, List.length_singleton]
        omega

/-- C8 witness: a branch of 25 items trimmed at `maxLen = 0` stays within the
grace bound, and an untrimmed call keeps every item. -/
theorem updateBranch_trim_bounds_witness :
    (updateBranch (List.replicate 25 (⟨[], none, none⟩ : Item Nat Nat Nat)) 25 0
        ⟨[], none, none⟩).length ≤ 0 + 20
    ∧ updateBranch ([⟨[1], none, none⟩] : List (Item Nat Nat Nat)) 1 5 ⟨[2], none, none⟩
        = [⟨[1], none, none⟩, ⟨[2], none, none⟩] := by
  refine ⟨(updateBranch_trim_bounds _ 25 0 _).1, ?_⟩
  exact ((updateBranch_trim_bounds _ 1 5 _).2.1 (by omega)).trans (by decide)

/-- C6: when no previous edit time is stored, or when the gap since the
previous tracked edit is at least `newGroupDelay`, `HistoryState.addChanges`
passes the always-false predicate `nope` to the branch-level merge, so a fresh
change record is appended and no merge with the previous item can happen, for
every supplied merge predicate. -/
theorem addChanges_time_window_fresh {D C S : Type} (ops : EditOpsModel D C S)
    (s : HistoryState D C S) (changes : List C) (inv : List C) (sel : S)
    (mayMerge : Option D → Option D → Bool) (time newGroupDelay : Int) (maxLen : Nat)
    (h : s.prevTime = none ∨
      ∃ prev, s.prevTime = some prev ∧ newGroupDelay ≤ time - prev) :
    s.addChanges ops changes (some inv) sel mayMerge time newGroupDelay maxLen =
      ⟨updateBranch s.done s.done.length maxLen
          ⟨changes.map ops.desc, some inv, some sel⟩,
        s.undone, some time⟩ := by
  have hpred : (match s.prevTime with
      | some prev => if time - prev < newGroupDelay then mayMerge else nope
      | none => nope) = (nope : Option D → Option D → Bool) := by
    rcases h with h | ⟨prev, hp, hge⟩
    · rw [h]
    · rw [hp]
      exact if_neg (by omega)
  unfold HistoryState.addChanges
  rw [hpred, addChanges_nope]

/-- C6 witness: with no stored timestamp, and with a stored timestamp whose
gap reaches the delay, the always-true predicate still never merges. -/
theorem addChanges_time_window_fresh_witness :
    (HistoryState.empty : HistoryState Nat Nat Nat).addChanges natOps [1] (some [2]) 7
        (fun _ _ => true) 100 50 10
      = ⟨[⟨[1], some [2], some 7⟩], [], some 100⟩
    ∧ (HistoryState.mk [⟨[1], some [2], some 7⟩] [] (some 0) : HistoryState Nat Nat Nat).addChanges
          natOps [3] (some [4]) 8 (fun _ _ => true) 100 50 10
      = ⟨[⟨[1], some [2], some 7⟩, ⟨[3], some [4], some 8⟩], [], some 100⟩ := by
  constructor
  · exact (addChanges_time_window_fresh natOps HistoryState.empty [1] [2] 7
      (fun _ _ => true) 100 50 10 (Or.inl rfl)).trans (by decide)
  · exact (addChanges_time_window_fresh natOps _ [3] [4] 8
      (fun _ _ => true) 100 50 10 (Or.inr ⟨0, rfl, by decide⟩)).trans (by decide)

/-- C5: with a present inverse, a non-empty branch whose last item is a change
record, and a merge predicate accepting the adjacent changes, `addChanges`
replaces the last item by the merged item — forward map extended by the new
script, inverse of the new edit followed by the old inverse, selection kept;
in every other case a fresh item holding the new script, its inverse and the
selection before the edit is appended. -/
theorem addChanges_merge_spec {D C S : Type} (ops : EditOpsModel D C S)
    (branch : List (Item D C S)) (changes : List C) (inverted : Option (List C))
    (sel : S) (maxLen : Nat) (p : Option D → Option D → Bool) :
    (∀ (inv : List C) (lastItem : Item D C S) (lastInv : List C),
        inverted = some inv → branch.getLast? = some lastItem →
        lastItem.inverted = some lastInv →
        p lastItem.map.getLast? ((changes.head?).map ops.desc) = true →
        Branch.addChanges ops branch changes inverted sel maxLen p =
          updateBranch branch (branch.length - 1) maxLen
            ⟨lastItem.map ++ changes.map ops.desc, some (inv ++ lastInv),
              lastItem.selection⟩)
    ∧ ((inverted = none ∨ branch.getLast? = none ∨
          (∃ lastItem, branch.getLast? = some lastItem ∧
            (lastItem.inverted = none ∨
              p lastItem.map.getLast? ((changes.head?).map ops.desc) = false))) →
        Branch.addChanges ops branch changes inverted sel maxLen p =
          updateBranch branch branch.length maxLen
            ⟨changes.map ops.desc, inverted, some sel⟩) := by
  constructor
  · intro inv li lInv h1 h2 h3 h4
    subst h1
    simp [Branch.addChanges, h2, h3, h4]
  · rintro (rfl | h | ⟨li, hli, h⟩)
    · rcases hbl : branch.getLast? with _ | li <;> simp [Branch.addChanges, hbl]
    · rcases inverted with _ | inv <;> simp [Branch.addChanges, h]
    · rcases h with h | h <;> rcases inverted with _ | inv <;>
        simp [Branch.addChanges, hli, h] <;> cases li.inverted <;> rfl

/-- C5 witness: a merge with an accepting predicate folds the edit into the
last item; the always-false predicate appends a fresh item instead. -/
theorem addChanges_merge_spec_witness :
    Branch.addChanges natOps [⟨[1], some [2], some 9⟩] [3] (some [4]) 7 10
        (fun _ _ => true)
      = [⟨[1, 3], some [4, 2], some 9⟩]
    ∧ Branch.addChanges natOps [⟨[1], some [2], some 9⟩] [3] (some [4]) 7 10 nope
      = [⟨[1], some [2], some 9⟩, ⟨[3], some [4], some 7⟩] := by
  constructor
  · exact ((addChanges_merge_spec natOps [⟨[1], some [2], some 9⟩] [3] (some [4]) 7 10
      (fun _ _ => true)).1 [4] ⟨[1], some [2], some 9⟩ [2] rfl rfl rfl rfl).trans (by decide)
  · exact ((addChanges_merge_spec natOps [⟨[1], some [2], some 9⟩] [3] (some [4]) 7 10
      nope).2 (Or.inr (Or.inr ⟨⟨[1], some [2], some 9⟩, rfl, Or.inr rfl⟩))).trans (by decide)

/-- C3 counterexample: `addMapping` on a state with a non-empty done branch
and a non-empty undone branch appends the pass-through item to the done
branch only — the undone branch is returned unchanged, without the
pass-through, contradicting the claim that the record is applied to both
branches. -/
theorem addMapping_undone_unchanged_cex :
    ((HistoryState.mk [⟨[0], none, none⟩] [⟨[4], some [9], some 1⟩] none :
        HistoryState Nat Nat Nat).addMapping [5] 100).done
        = [⟨[0], none, none⟩, ⟨[5], none, none⟩]
    ∧ ((HistoryState.mk [⟨[0], none, none⟩] [⟨[4], some [9], some 1⟩] none :
        HistoryState Nat Nat Nat).addMapping [5] 100).undone
        = [⟨[4], some [9], some 1⟩]
    ∧ (⟨[5], none, none⟩ : Item Nat Nat Nat) ∉
        ((HistoryState.mk [⟨[0], none, none⟩] [⟨[4], some [9], some 1⟩] none :
          HistoryState Nat Nat Nat).addMapping [5] 100).undone := by
  decide

/-- C3 (amended): `addMapping` with an untracked script is a no-op when the
done branch is empty; otherwise it appends a pass-through item holding only
that script to the done branch through the trim rule, clears the stored
timestamp, and leaves the undone branch unchanged. -/
theorem addMapping_done_only {D C S : Type} (s : HistoryState D C S)
    (m : List D) (maxLen : Nat) :
    (s.done = [] → s.addMapping m maxLen = s)
    ∧ (s.done ≠ [] →
        s.addMapping m maxLen =
          ⟨updateBranch s.done s.done.length maxLen ⟨m, none, none⟩,
            s.undone, none⟩) := by
  constructor
  · intro h
    simp [HistoryState.addMapping, h]
  · intro h
    rw [HistoryState.addMapping, if_neg (by simpa [List.length_eq_zero] using h)]

/-- C3 witness: the no-op case on the empty state and the append case on a
one-item done branch, evaluated concretely. -/
theorem addMapping_done_only_witness :
    (HistoryState.empty : HistoryState Nat Nat Nat).addMapping [1] 10 = HistoryState.empty
    ∧ (HistoryState.mk [⟨[2], some [3], some 4⟩] [] none :
        HistoryState Nat Nat Nat).addMapping [1] 10
      = ⟨[⟨[2], some [3], some 4⟩, ⟨[1], none, none⟩], [], none⟩ := by
  constructor
  · exact (addMapping_done_only HistoryState.empty [1] 10).1 rfl
  · exact ((addMapping_done_only _ [1] 10).2 (by decide)).trans (by decide)

/-- C7: popping a branch whose top item is a change record accumulates no
pass-through scripts, so the result is exactly the inverse of the target, its
stored selection, and the branch below the target, under either filter. -/
theorem popChanges_no_passthrough_pop {D C S : Type} (ops : EditOpsModel D C S)
    (below : List (Item D C S)) (target : Item D C S) (inv : List C)
    (only : ItemFilter) (hinv : target.inverted = some inv) :
    popChanges ops (below ++ [target]) only =
      Except.ok ⟨inv, below, target.selection⟩ := by
  unfold popChanges
  rw [show (below ++ [target]).reverse = target :: below.reverse by simp]
  have ht : target.isChange = true := by simp [Item.isChange, hinv]
  cases only <;> simp [popScanLoop, ht, hinv]

/-- C7 witness: popping a two-item branch whose top is a change record
returns its inverse, its selection and the one-item remainder. -/
theorem popChanges_no_passthrough_pop_witness :
    popChanges natOps [⟨[9], none, none⟩, ⟨[1], some [5], some 3⟩]
        ItemFilter.OnlyChanges
      = Except.ok ⟨[5], [⟨[9], none, none⟩], some 3⟩ := by
  exact popChanges_no_passthrough_pop natOps [⟨[9], none, none⟩]
    ⟨[1], some [5], some 3⟩ [5] ItemFilter.OnlyChanges rfl

/-- C10: a non-empty branch whose top item is a pass-through record (forward
map only) can be popped under filter `Any`: `canPop` is true on either
target, and `popChanges` succeeds with an empty edit script, the branch
without its top item, and an absent selection. -/
theorem popChanges_any_passthrough_top {D C S : Type} (ops : EditOpsModel D C S)
    (below : List (Item D C S)) (top : Item D C S)
    (hinv : top.inverted = none) (hsel : top.selection = none) :
    (HistoryState.mk (below ++ [top]) [] none).canPop PopTarget.Done ItemFilter.Any = true
    ∧ (HistoryState.mk [] (below ++ [top]) none).canPop PopTarget.Undone ItemFilter.Any = true
    ∧ popChanges ops (below ++ [top]) ItemFilter.Any = Except.ok ⟨[], below, none⟩ := by
  refine ⟨by simp [HistoryState.canPop], by simp [HistoryState.canPop], ?_⟩
  unfold popChanges
  rw [show (below ++ [top]).reverse = top :: below.reverse by simp]
  simp [popScanLoop, hinv, hsel]

/-- C10 witness: a change record below a selection-free pass-through top,
popped under `Any`, evaluated concretely. -/
theorem popChanges_any_passthrough_top_witness :
    (HistoryState.mk [⟨[1], some [2], some 3⟩, ⟨[7], none, none⟩] [] none :
        HistoryState Nat Nat Nat).canPop PopTarget.Done ItemFilter.Any = true
    ∧ popChanges natOps [⟨[1], some [2], some 3⟩, ⟨[7], none, none⟩] ItemFilter.Any
      = Except.ok ⟨[], [⟨[1], some [2], some 3⟩], none⟩ := by
  have h := popChanges_any_passthrough_top natOps [⟨[1], some [2], some 3⟩]
    ⟨[7], none, none⟩ rfl rfl
  exact ⟨h.1, h.2.2⟩

/-- Under the `Any` filter the scan only fails on an empty list. -/
theorem popScanLoop_any_none_iff {D C S : Type} (l : List (Item D C S))
    (m : Option (List D)) :
    popScanLoop ItemFilter.Any l m = none ↔ l = [] := by
  cases l <;> simp [popScanLoop]

/-- Under the `OnlyChanges` filter the scan fails exactly when no item of the
list is a change record. -/
theorem popScanLoop_only_none_iff {D C S : Type} (l : List (Item D C S)) :
    ∀ m : Option (List D),
      popScanLoop ItemFilter.OnlyChanges l m = none ↔
        ∀ it ∈ l, it.isChange = false := by
  induction l with
  | nil => intro m; simp [popScanLoop]
  | cons e rest ih =>
    intro m
    by_cases he : e.isChange = true
    · simp [popScanLoop, he]
    · have heF : e.isChange = false := by simpa using he
      simp [popScanLoop, heF, ih]

/-- The pop succeeds exactly when the scan finds a target. -/
theorem popChanges_isOk_false_iff {D C S : Type} (ops : EditOpsModel D C S)
    (branch : List (Item D C S)) (only : ItemFilter) :
    (popChanges ops branch only).isOk = false ↔
      popScanLoop only branch.reverse none = none := by
  unfold popChanges
  rcases h : popScanLoop only branch.reverse none with _ | ⟨ci, rest, mo⟩
  · simp [Except.isOk, Except.toBool]
  · rcases mo with _ | acc <;> simp [Except.isOk, Except.toBool]

/-- C4: `popChanges` throws exactly when `canPop` on the corresponding branch
and filter is false; under `Any` it throws exactly on an empty branch, under
`OnlyChanges` exactly when the branch holds no change record. -/
theorem popChanges_error_iff_canPop {D C S : Type} (ops : EditOpsModel D C S)
    (s : HistoryState D C S) (pt : PopTarget) (only : ItemFilter) :
    ((popChanges ops (match pt with
          | PopTarget.Done => s.done
          | PopTarget.Undone => s.undone) only).isOk = false
        ↔ s.canPop pt only = false)
    ∧ (∀ branch : List (Item D C S),
        ((popChanges ops branch ItemFilter.Any).isOk = false ↔ branch = []))
    ∧ (∀ branch : List (Item D C S),
        ((popChanges ops branch ItemFilter.OnlyChanges).isOk = false ↔
          ∀ it ∈ branch, it.isChange = false)) := by
  have hAny : ∀ branch : List (Item D C S),
      ((popChanges ops branch ItemFilter.Any).isOk = false ↔ branch = []) := by
    intro branch
    rw [popChanges_isOk_false_iff, popScanLoop_any_none_iff]
    simp
  have hOnly : ∀ branch : List (Item D C S),
      ((popChanges ops branch ItemFilter.OnlyChanges).isOk = false ↔
        ∀ it ∈ branch, it.isChange = false) := by
    intro branch
    rw [popChanges_isOk_false_iff, popScanLoop_only_none_iff]
    constructor
    · intro h it hm
      exact h it (List.mem_reverse.mpr hm)
    · intro h it hm
      exact h it (List.mem_reverse.mp hm)
  refine ⟨?_, hAny, hOnly⟩
  rcases only with _ | _
  · rw [hOnly]
    unfold HistoryState.canPop
    rcases pt with _ | _ <;> simp [List.any_eq_false]
  · rw [hAny]
    unfold HistoryState.canPop
    rcases pt with _ | _ <;> simp [List.length_eq_zero]

/-- C4 witness: popping the empty done branch under `OnlyChanges` fails, and
`canPop` is false there; popping a one-change branch succeeds. -/
theorem popChanges_error_iff_canPop_witness :
    (popChanges natOps (HistoryState.empty : HistoryState Nat Nat Nat).done
        ItemFilter.OnlyChanges).isOk = false
    ∧ (popChanges natOps [(⟨[1], some [2], some 3⟩ : Item Nat Nat Nat)]
        ItemFilter.Any).isOk = true := by
  constructor
  · exact ((popChanges_error_iff_canPop natOps HistoryState.empty PopTarget.Done
      ItemFilter.OnlyChanges).2.2 HistoryState.empty.done).mpr (by decide)
  · have h := ((popChanges_error_iff_canPop natOps HistoryState.empty PopTarget.Done
      ItemFilter.OnlyChanges).2.1 [(⟨[1], some [2], some 3⟩ : Item Nat Nat Nat)])
    rcases hb : (popChanges natOps [(⟨[1], some [2], some 3⟩ : Item Nat Nat Nat)]
        ItemFilter.Any).isOk with _ | _
    · exact absurd (h.mp hb) (by decide)
    · rfl

/-- Accumulator of the scan loop in isolation: the pass-through map collected
while skipping the given (top-first) list of items. -/
def scanAcc {D C S : Type} : List (Item D C S) → Option (List D) → Option (List D)
  | [], m => m
  | e :: rest, m =>
    scanAcc rest
      (some (match m with
             | some mm => e.map ++ mm
             | none => e.map))

/-- Scanning under `OnlyChanges` skips a top-first run of non-change items,
accumulating their maps, and stops at the first change record. -/
theorem popScanLoop_skip {D C S : Type} (l : List (Item D C S))
    (target : Item D C S) (restRev : List (Item D C S))
    (ht : target.isChange = true) :
    ∀ m : Option (List D), (∀ p ∈ l, p.isChange = false) →
      popScanLoop ItemFilter.OnlyChanges (l ++ target :: restRev) m =
        some (target, restRev, scanAcc l m) := by
  induction l with
  | nil =>
    intro m _
    simp [popScanLoop, scanAcc, ht]
  | cons e rest ih =>
    intro m hl
    have he : e.isChange = false := hl e (List.mem_cons_self e rest)
    have hrest : ∀ p ∈ rest, p.isChange = false :=
      fun p hp => hl p (List.mem_cons_of_mem e hp)
    simp only [List.cons_append, popScanLoop, scanAcc, he]
    rw [if_neg (by simp [he])]
    exact ih _ hrest

/-- The accumulated map over a non-empty run is the concatenation of the maps
of the skipped items in branch order (the run is given top-first, so its
reverse is branch order), followed by whatever was accumulated before. -/
theorem scanAcc_eq {D C S : Type} (l : List (Item D C S)) (hne : l ≠ []) :
    ∀ m : Option (List D),
      scanAcc l m = some ((l.map Item.map).reverse.flatten ++ m.getD []) := by
  induction l with
  | nil => exact absurd rfl hne
  | cons e rest ih =>
    intro m
    by_cases hr : rest = []
    · subst hr
      rcases m with _ | mm <;> simp [scanAcc]
    · simp only [scanAcc]
      rw [ih hr]
      rcases m with _ | mm <;>
        simp [List.flatten_append, List.append_assoc]

/-- C1: popping under `OnlyChanges` a branch whose change record sits below a
non-empty run of pass-through items returns the branch below the target plus
exactly one residual pass-through item; the returned edits are the inverse of
the target remapped edit-by-edit through the composed forward map (the target
map followed by the accumulated pass-through scripts, each inverse edit going
through the suffix composition indexed by its position, the composed map
growing by each successfully mapped edit), dropped when the remap yields
nothing; and the returned selection is the stored prior selection of the
target mapped through the final composed map. -/
theorem popChanges_onlyChanges_remaps_passthrough {D C S : Type}
    (ops : EditOpsModel D C S) (below passes : List (Item D C S))
    (target : Item D C S) (inv : List C) (sel : S)
    (hne : passes ≠ []) (hpass : ∀ p ∈ passes, p.inverted = none)
    (hinv : target.inverted = some inv) (hsel : target.selection = some sel) :
    popChanges ops (below ++ target :: passes) ItemFilter.OnlyChanges =
      Except.ok
        ⟨(remapLoop ops target.map.length inv 0
            (target.map ++ (passes.map Item.map).flatten) []).2,
          below ++ [⟨(remapLoop ops target.map.length inv 0
            (target.map ++ (passes.map Item.map).flatten) []).1, none, none⟩],
          some (ops.mapSel sel (remapLoop ops target.map.length inv 0
            (target.map ++ (passes.map Item.map).flatten) []).1)⟩ := by
  have hrev : (below ++ target :: passes).reverse =
      passes.reverse ++ target :: below.reverse := by
    simp
  have hpassrev : ∀ p ∈ passes.reverse, p.isChange = false := by
    intro p hp
    have hn := hpass p (List.mem_reverse.mp hp)
    simp [Item.isChange, hn]
  have ht : target.isChange = true := by simp [Item.isChange, hinv]
  have hner : passes.reverse ≠ [] := by simpa using hne
  have hacc : scanAcc passes.reverse (none : Option (List D)) =
      some ((passes.map Item.map).flatten) := by
    rw [scanAcc_eq passes.reverse hner none]
    simp [List.map_reverse]
  unfold popChanges
  rw [hrev, popScanLoop_skip passes.reverse target below.reverse ht none hpassrev,
    hacc]
  simp [hinv, hsel]

/-- C1 witness: one pass-through above a merged two-edit change record, with
the shift-by-length model of remapping, evaluated concretely. -/
theorem popChanges_onlyChanges_remaps_passthrough_witness :
    popChanges natOps
        [⟨[1, 2], some [10, 20], some 5⟩, ⟨[7], none, none⟩] ItemFilter.OnlyChanges
      = Except.ok ⟨[11, 23], [⟨[1, 2, 7, 11, 23], none, none⟩], some 10⟩ := by
  exact (popChanges_onlyChanges_remaps_passthrough natOps []
      [⟨[7], none, none⟩] ⟨[1, 2], some [10, 20], some 5⟩ [10, 20] 5
      (by decide) (by decide) rfl rfl).trans (by rfl)

/-- Reachability of a history state through the public state operations
modelled in this file: the empty state, `addChanges`, `addMapping` and
`resetTime`.  This under-approximates the full public interface (the `pop`
method, which additionally consumes an external transaction, is not
included), which suffices for exhibiting concrete reachable states. -/
inductive Reachable {D C S : Type} (ops : EditOpsModel D C S) :
    HistoryState D C S → Prop
  | empty : Reachable ops HistoryState.empty
  | addChanges (s : HistoryState D C S) (changes : List C)
      (inverted : Option (List C)) (selection : S)
      (mayMerge : Option D → Option D → Bool) (time newGroupDelay : Int)
      (maxLen : Nat) : Reachable ops s →
      Reachable ops
        (s.addChanges ops changes inverted selection mayMerge time newGroupDelay maxLen)
  | addMapping (s : HistoryState D C S) (map : List D) (maxLen : Nat) :
      Reachable ops s → Reachable ops (s.addMapping map maxLen)
  | resetTime (s : HistoryState D C S) :
      Reachable ops s → Reachable ops s.resetTime

/-- Reachability restricted to `addChanges` calls that supply an inverse
script (the tracked-edit shape): empty state, `addChanges` with a present
inverse, `addMapping` and `resetTime`. -/
inductive ReachableInv {D C S : Type} (ops : EditOpsModel D C S) :
    HistoryState D C S → Prop
  | empty : ReachableInv ops HistoryState.empty
  | addChanges (s : HistoryState D C S) (changes : List C) (inv : List C)
      (selection : S) (mayMerge : Option D → Option D → Bool)
      (time newGroupDelay : Int) (maxLen : Nat) : ReachableInv ops s →
      ReachableInv ops
        (s.addChanges ops changes (some inv) selection mayMerge time newGroupDelay maxLen)
  | addMapping (s : HistoryState D C S) (map : List D) (maxLen : Nat) :
      ReachableInv ops s → ReachableInv ops (s.addMapping map maxLen)
  | resetTime (s : HistoryState D C S) :
      ReachableInv ops s → ReachableInv ops s.resetTime

/-- C2 counterexample: the claimed invariant fails on a state reachable
through the public operations — calling `addChanges` with an absent inverse
appends an item whose inverse is absent but whose stored selection is
present. -/
theorem reachable_passthrough_selection_cex :
    ¬ (∀ s : HistoryState Nat Nat Nat, Reachable natOps s →
        ∀ it : Item Nat Nat Nat, (it ∈ s.done ∨ it ∈ s.undone) →
          it.inverted = none → it.selection = none) := by
  intro h
  have hr : Reachable natOps
      (HistoryState.empty.addChanges natOps [] none 5 nope 0 0 100) :=
    Reachable.addChanges HistoryState.empty [] none 5 nope 0 0 100 Reachable.empty
  have hm : (⟨[], none, some 5⟩ : Item Nat Nat Nat) ∈
      (HistoryState.empty.addChanges natOps [] none 5 nope 0 0 100).done := by
    decide
  have hsel := h _ hr ⟨[], none, some 5⟩ (Or.inl hm) rfl
  simp at hsel

/-- C2 (amended): in every state reachable from the empty state through
`resetTime`, `addMapping` and `addChanges` calls that supply an inverse
script, every item of either branch whose inverse is absent also has an
absent selection; the unrestricted claim fails because `addChanges` with an
absent inverse (and likewise a pop that pushes a record with no edits)
stores the prior selection on a non-change item. -/
theorem reachableInv_passthrough_no_selection {D C S : Type}
    (ops : EditOpsModel D C S) :
    ∀ s : HistoryState D C S, ReachableInv ops s →
      ∀ it : Item D C S, (it ∈ s.done ∨ it ∈ s.undone) →
        it.inverted = none → it.selection = none := by
  intro s hs
  induction hs with
  | empty =>
    intro it hm _
    rcases hm with hm | hm <;> simp [HistoryState.empty] at hm
  | addChanges s changes inv sel p time d maxLen _ ih =>
    intro it hm hnone
    rcases hm with hm | hm
    · rcases mem_addChanges_some
          (show it ∈ Branch.addChanges ops s.done changes (some inv) sel maxLen _
            from hm) with hc | hmem
      · rw [Item.isChange, hnone] at hc
        simp at hc
      · exact ih it (Or.inl hmem) hnone
    · exact ih it (Or.inr hm) hnone
  | addMapping s m maxLen _ ih =>
    intro it hm hnone
    unfold HistoryState.addMapping at hm
    by_cases hd : s.done.length = 0
    · rw [if_pos hd] at hm
      exact ih it hm hnone
    · rw [if_neg hd] at hm
      rcases hm with hm | hm
      · rcases mem_updateBranch hm with rfl | hmem
        · rfl
        · exact ih it (Or.inl hmem) hnone
      · exact ih it (Or.inr hm) hnone
  | resetTime s _ ih =>
    intro it hm hnone
    exact ih it hm hnone

/-- C2 witness: the pass-through item appended by `addMapping` on top of a
tracked edit carries no selection, through the amended invariant at a
concrete reachable state. -/
theorem reachableInv_passthrough_no_selection_witness :
    ReachableInv natOps
      ((HistoryState.empty.addChanges natOps [1] (some [2]) 5 nope 0 0 100).addMapping
        [3] 100)
    ∧ (⟨[3], none, none⟩ : Item Nat Nat Nat).selection = none := by
  have hr : ReachableInv natOps
      ((HistoryState.empty.addChanges natOps [1] (some [2]) 5 nope 0 0 100).addMapping
        [3] 100) :=
    ReachableInv.addMapping _ [3] 100
      (ReachableInv.addChanges HistoryState.empty [1] [2] 5 nope 0 0 100
        ReachableInv.empty)
  refine ⟨hr, ?_⟩
  exact reachableInv_passthrough_no_selection natOps _ hr ⟨[3], none, none⟩
    (Or.inl (by decide)) rfl
